import Mathlib

/-!
Verification of the hybrid-retrieval pipeline of `medicine-rag-custom-gpt`.

The definitions below are a shallow embedding of the Go source:

* `mcp/search.go` — RRF fusion (`hybridSearch`), rank collection
  (`collectTextSearchRanks`, `collectVectorSearchRanks`), top-M selection by
  bounded min-heap, section grouping (`GroupBySectionWithRank`), neighbour
  materialisation (`fetchChunksByIds`) and passage emission (`Run`).
* `middleware/auth_middleware.go` — API-key authentication.
* `controller/query_controller.go`, `controller/metadata_controller.go` —
  route wiring.

Go `float64` score arithmetic is modelled exactly over `ℚ`; Go maps are
modelled as association lists (`List (key × value)`) with `List.lookup`,
insertion order standing in for the (unordered) map contents.  Fallible
collaborators (embedder, store) are modelled with `Except`/`Option`.
-/

namespace MedicineRag

/-- Modelled from the spec: the repository's `db` package (the `db.ChunkModel`
record) is not among the provided source files; its fields follow §3 of the
design document (`chunk_id`, `section_id`, `window_index`, `prev_chunk_id`,
`next_chunk_id`, `title`, `source_uri`, `sentences`), and its identity
(`Id()`) is `chunk_id` alone. -/
structure ChunkModel where
  chunkID : String
  sectionID : String
  windowIndex : Int
  prevChunkID : String
  nextChunkID : String
  title : String
  sourceURI : String
  sentences : List String
deriving DecidableEq, Repr, Inhabited

/-- Modelled from the spec: `db.ChunkAnnModel` (the vector companion record)
is not among the provided source files; only its `chunk_id` is consumed by
the core (§3, "VectorChunk"). -/
structure ChunkAnnModel where
  chunkID : String
deriving DecidableEq, Repr, Inhabited

/-- `odm.SearchHit[T]`: one engine hit carrying the full document; the rank
is the position in the hit list. -/
structure SearchHit (α : Type) where
  doc : α
deriving DecidableEq, Repr

/-- Search parameter `rrfK = 60` from `mcp/search.go`. -/
def rrfK : Nat := 60

/-- Search parameter `textSearchWeight = 1.0` from `mcp/search.go`. -/
def textSearchWeight : ℚ := 1

/-- Search parameter `vectorSearchWeight = 1.0` from `mcp/search.go`. -/
def vectorSearchWeight : ℚ := 1

/-- Search parameter `maxChunks = 30` from `mcp/search.go`. -/
def maxChunks : Nat := 30

/-- `combined[id] += v` on a Go map: add to the entry if present, otherwise
insert the value (a missing key reads as the zero value `0`). -/
def upsertAdd (m : List (String × ℚ)) (id : String) (v : ℚ) : List (String × ℚ) :=
  match m with
  | [] => [(id, v)]
  | (k, x) :: rest => if k = id then (k, x + v) :: rest else (k, x) :: upsertAdd rest id v

/-- Step 3 of `hybridSearch`: build the fused score map.  First loop writes
`textSearchWeight / (rrfK + r)` for every lexical rank, second loop adds
`vectorSearchWeight / (rrfK + r)` for every vector rank (`+=` on a Go map). -/
def combinedMap (textRanks vecRanks : List (String × Nat)) : List (String × ℚ) :=
  vecRanks.foldl (fun acc p => upsertAdd acc p.1 (vectorSearchWeight / ((rrfK : ℚ) + (p.2 : ℚ))))
    (textRanks.map (fun p => (p.1, textSearchWeight / ((rrfK : ℚ) + (p.2 : ℚ)))))

/-- Heap ordering of step 4 of `hybridSearch`: `ds.NewMinHeap(func(a, b pair) bool
{ return a.score < b.score })` — elements compared by RRF score. -/
def scoreLE (a b : String × ℚ) : Prop := a.2 ≤ b.2

instance : DecidableRel scoreLE := fun a b => inferInstanceAs (Decidable (a.2 ≤ b.2))

instance : IsTotal (String × ℚ) scoreLE := ⟨fun a b => le_total a.2 b.2⟩

instance : IsTrans (String × ℚ) scoreLE := ⟨fun _ _ _ hab hbc => le_trans hab hbc⟩

/-- One iteration of the top-M loop: `h.Push(pair{id, sc}); if h.Len() >
maxChunks { h.Pop() }`.  The heap is modelled by its sorted-ascending element
list; `Pop` removes a minimal element (the head). -/
def heapPush (M : Nat) (h : List (String × ℚ)) (p : String × ℚ) : List (String × ℚ) :=
  if M < (h.orderedInsert scoreLE p).length then (h.orderedInsert scoreLE p).tail
  else h.orderedInsert scoreLE p

/-- The heap contents after pushing every fused `(id, score)` pair
(`h.ToSortedSlice()`, ascending). -/
def topMPairs (M : Nat) (combined : List (String × ℚ)) : List (String × ℚ) :=
  combined.foldl (heapPush M) []

/-- Step 4's result: ids of the kept pairs, reversed so the highest score
comes first (`linq.Select(p.id)` then `linq.Reverse`). -/
def topMIds (M : Nat) (combined : List (String × ℚ)) : List String :=
  ((topMPairs M combined).map Prod.fst).reverse

/-- Constant `W = 1.0` of `GroupBySectionWithRank` (base weight). -/
def W : ℚ := 1

/-- Constant `AdjacencyBonus = 0.15` of `GroupBySectionWithRank`. -/
def AdjacencyBonus : ℚ := 15 / 100

/-- Constant `Lambda = 0.10` of `GroupBySectionWithRank` (diminishing-returns
soft cap). -/
def Lambda : ℚ := 1 / 10

/-- `rr(rank) = W / math.Pow(rank, P)` with `P = 1.0`, so the power collapses
to `rank` itself. -/
def rrWeight (rank : Nat) : ℚ := W / (rank : ℚ)

/-- The per-section accumulator `agg` of `GroupBySectionWithRank`. -/
structure Agg where
  score : ℚ
  count : Nat
  bestRank : Nat
  seenWin : List Int
  collected : List ChunkModel
deriving DecidableEq, Repr

/-- The fresh `agg` created when a section id is first met: zero score and
count, `bestRank` initialised to the current rank. -/
def freshAgg (rank : Nat) : Agg :=
  { score := 0, count := 0, bestRank := rank, seenWin := [], collected := [] }

/-- The loop body of `GroupBySectionWithRank` for one chunk at 1-based fused
rank `rank`: add `rr(rank)` to the score, bump the count, append to
`collected`, add the adjacency bonus when `WindowIndex-1` is already in
`seenWin`, record `WindowIndex`, and lower `bestRank` when the new rank is
smaller. -/
def applyChunk (a : Agg) (rank : Nat) (ch : ChunkModel) : Agg :=
  { score := a.score + rrWeight rank +
      (if ch.windowIndex - 1 ∈ a.seenWin then AdjacencyBonus * rrWeight rank else 0),
    count := a.count + 1,
    bestRank := min a.bestRank rank,
    seenWin := ch.windowIndex :: a.seenWin,
    collected := a.collected ++ [ch] }

/-- `sections[ch.SectionID]` upsert: apply the chunk to the existing `agg`,
or to a fresh one when the section id is new. -/
def upsertAgg (sections : List (String × Agg)) (sid : String) (rank : Nat) (ch : ChunkModel) :
    List (String × Agg) :=
  match sections with
  | [] => [(sid, applyChunk (freshAgg rank) rank ch)]
  | (k, a) :: rest =>
      if k = sid then (k, applyChunk a rank ch) :: rest
      else (k, a) :: upsertAgg rest sid rank ch

/-- The chunks paired with their 1-based fused ranks (`for i := range chunks;
rank := i + 1`). -/
def rankedPairs (chunks : List ChunkModel) : List (Nat × ChunkModel) :=
  chunks.enum.map (fun p => (p.1 + 1, p.2))

/-- The `sections` map after the main loop of `GroupBySectionWithRank`. -/
def buildSections (chunks : List ChunkModel) : List (String × Agg) :=
  (rankedPairs chunks).foldl (fun secs p => upsertAgg secs p.2.sectionID p.1 p.2) []

/-- Diminishing returns: `if a.count > 1 { a.score /= 1 + Lambda*(count-1) }`. -/
def finishAgg (a : Agg) : Agg :=
  if 1 < a.count then { a with score := a.score / (1 + Lambda * ((a.count : ℚ) - 1)) }
  else a

/-- The comparator of `slices.SortFunc` in `GroupBySectionWithRank`, as a
non-strict ordering: score descending, then `bestRank` ascending, then
`count` descending. -/
def aggLE (x y : String × Agg) : Prop :=
  y.2.score < x.2.score ∨
    (x.2.score = y.2.score ∧
      (x.2.bestRank < y.2.bestRank ∨
        (x.2.bestRank = y.2.bestRank ∧ y.2.count ≤ x.2.count)))

instance : DecidableRel aggLE := fun x y =>
  inferInstanceAs (Decidable (y.2.score < x.2.score ∨
    (x.2.score = y.2.score ∧
      (x.2.bestRank < y.2.bestRank ∨
        (x.2.bestRank = y.2.bestRank ∧ y.2.count ≤ x.2.count)))))

instance : IsTotal (String × Agg) aggLE := by
  constructor
  intro x y
  rcases lt_trichotomy x.2.score y.2.score with h | h | h
  · exact Or.inr (Or.inl h)
  · rcases lt_trichotomy x.2.bestRank y.2.bestRank with hb | hb | hb
    · exact Or.inl (Or.inr ⟨h, Or.inl hb⟩)
    · rcases le_total y.2.count x.2.count with hc | hc
      · exact Or.inl (Or.inr ⟨h, Or.inr ⟨hb, hc⟩⟩)
      · exact Or.inr (Or.inr ⟨h.symm, Or.inr ⟨hb.symm, hc⟩⟩)
    · exact Or.inr (Or.inr ⟨h.symm, Or.inl hb⟩)
  · exact Or.inl (Or.inl h)

instance : IsTrans (String × Agg) aggLE := by
  constructor
  intro x y z hxy hyz
  rcases hxy with h1 | ⟨e1, r1⟩
  · rcases hyz with h2 | ⟨e2, _⟩
    · exact Or.inl (h2.trans h1)
    · exact Or.inl (e2 ▸ h1)
  · rcases hyz with h2 | ⟨e2, r2⟩
    · exact Or.inl (by rw [e1]; exact h2)
    · refine Or.inr ⟨e1.trans e2, ?_⟩
      rcases r1 with b1 | ⟨be1, c1⟩
      · rcases r2 with b2 | ⟨be2, _⟩
        · exact Or.inl (b1.trans b2)
        · exact Or.inl (be2 ▸ b1)
      · rcases r2 with b2 | ⟨be2, c2⟩
        · exact Or.inl (by rw [be1]; exact b2)
        · exact Or.inr ⟨be1.trans be2, c2.trans c1⟩

/-- The sorted `order` slice of `GroupBySectionWithRank`: diminishing returns
applied per section, then sorted by the comparator.  (Go iterates the
`sections` map in unspecified order; the model iterates in first-encounter
order — the claims only depend on sortedness, and remaining ties are
unspecified.) -/
def sectionOrderKv (chunks : List ChunkModel) : List (String × Agg) :=
  List.insertionSort aggLE ((buildSections chunks).map (fun p => (p.1, finishAgg p.2)))

/-- `GroupBySectionWithRank`: `nil` on empty input, otherwise the `collected`
chunk lists of the sorted sections. -/
def GroupBySectionWithRank (chunks : List ChunkModel) : List (List ChunkModel) :=
  match chunks with
  | [] => []
  | _ => (sectionOrderKv chunks).map (fun p => p.2.collected)

/-- Single-section replay of the loop body: the state of one section's `agg`
depends only on the subsequence of chunks with that section id. -/
def aggStep (o : Option Agg) (p : Nat × ChunkModel) : Option Agg :=
  match o with
  | none => some (applyChunk (freshAgg p.1) p.1 p.2)
  | some a => some (applyChunk a p.1 p.2)

/-- Folding the single-section step over a list of (rank, chunk) pairs. -/
def aggFold (o : Option Agg) (ps : List (Nat × ChunkModel)) : Option Agg :=
  ps.foldl aggStep o

/-- The (rank, chunk) pairs of section `s`, in fused rank order. -/
def sectionPairsOf (s : String) (chunks : List ChunkModel) : List (Nat × ChunkModel) :=
  (rankedPairs chunks).filter (fun p => p.2.sectionID == s)

/-- Modelled from the spec: `true` when some earlier-ranked chunk (among
`earlier`) contributed window `x`. -/
def seenBefore (earlier : List (Nat × ChunkModel)) (x : Int) : Bool :=
  earlier.any (fun q => q.2.windowIndex == x)

/-- Modelled from the spec (§4.4): the pre-diminishing section score — the
sum over the section's chunks at fused positions `r` of `w(r)`, plus
`AdjacencyBonus · w(r)` for each chunk whose `window_index − 1` was
contributed by an earlier-ranked chunk of the same section. -/
def specBaseScore : List (Nat × ChunkModel) → List (Nat × ChunkModel) → ℚ
  | _, [] => 0
  | earlier, p :: rest =>
      rrWeight p.1 *
          (1 + (if seenBefore earlier (p.2.windowIndex - 1) then AdjacencyBonus else 0)) +
        specBaseScore (earlier ++ [p]) rest

/-- Modelled from the spec (§4.4): the final score of section `s` — the base
score divided by `1 + Lambda·(count − 1)` exactly when the section holds more
than one chunk. -/
def specSectionScore (s : String) (chunks : List ChunkModel) : ℚ :=
  if 1 < (sectionPairsOf s chunks).length then
    specBaseScore [] (sectionPairsOf s chunks) /
      (1 + Lambda * (((sectionPairsOf s chunks).length : ℚ) - 1))
  else specBaseScore [] (sectionPairsOf s chunks)

/-- The relation a section `agg` bears to the (rank, chunk) pairs already
folded into it. -/
def AggMatches (earlier : List (Nat × ChunkModel)) (a : Agg) : Prop :=
  a.score = specBaseScore [] earlier ∧
  a.count = earlier.length ∧
  (∀ x : Int, x ∈ a.seenWin ↔ seenBefore earlier x = true) ∧
  a.collected = earlier.map Prod.snd ∧
  a.bestRank ∈ earlier.map Prod.fst ∧
  (∀ q ∈ earlier, a.bestRank ≤ q.1)

/-- `cache[ch.ChunkID] = ch` on a Go map: replace if present, else insert. -/
def upsertChunk (m : List (String × ChunkModel)) (id : String) (c : ChunkModel) :
    List (String × ChunkModel) :=
  match m with
  | [] => [(id, c)]
  | (k, x) :: rest => if k = id then (k, c) :: rest else (k, x) :: upsertChunk rest id c

/-- The section-local cache built in `Run` from the section's chunks. -/
def localCache (cs : List ChunkModel) : List (String × ChunkModel) :=
  cs.foldl (fun m ch => upsertChunk m ch.chunkID ch) []

/-- One `if id != "" && !added.Contains(id)` step of the `needIds` loop. -/
def addNeeded (acc : List String) (id : String) : List String :=
  if id ≠ "" ∧ id ∉ acc then acc ++ [id] else acc

/-- The deduplicated `needIds` list of `Run`: for each chunk (in the given
order) append its `PrevChunkID`, its own `ChunkID`, then its `NextChunkID`,
skipping empty strings and ids already added. -/
def neededIds (cs : List ChunkModel) : List String :=
  cs.foldl
    (fun acc ch => addNeeded (addNeeded (addNeeded acc ch.prevChunkID) ch.chunkID) ch.nextChunkID)
    []

/-- The `missing` list of `fetchChunksByIds`: ids with no cache entry. -/
def missingOf (cache : List (String × ChunkModel)) (ids : List String) : List String :=
  ids.filter (fun id => (cache.lookup id).isNone)

/-- The part of `chunkByID` taken from the cache (step 1 of
`fetchChunksByIds`). -/
def cachedPart (cache : List (String × ChunkModel)) (ids : List String) :
    List (String × ChunkModel) :=
  ids.foldl (fun m id =>
    match cache.lookup id with
    | some c => upsertChunk m id c
    | none => m) []

/-- The full `chunkByID` map of `fetchChunksByIds`: cached entries plus the
chunks returned by the single batched store fetch of the missing ids.  A
failed fetch (`none`) contributes nothing (the error is logged and the
cached chunks are still used). -/
def resolveMap (cache : List (String × ChunkModel))
    (db : List String → Option (List ChunkModel)) (ids : List String) :
    List (String × ChunkModel) :=
  let fetched := if (missingOf cache ids).isEmpty then [] else (db (missingOf cache ids)).getD []
  fetched.foldl (fun m ch => upsertChunk m ch.chunkID ch) (cachedPart cache ids)

/-- `fetchChunksByIds`: nil on empty input; otherwise the chunks resolved from
`chunkByID` in the order of `rankedIds`, silently omitting ids that resolve
neither from cache nor from the batched fetch. -/
def fetchChunksByIds (cache : List (String × ChunkModel))
    (db : List String → Option (List ChunkModel)) (rankedIds : List String) :
    List ChunkModel :=
  if rankedIds.isEmpty then []
  else rankedIds.filterMap (fun id => (resolveMap cache db rankedIds).lookup id)

/-- The window ordering used by `sort.Slice` over a section's chunks. -/
def winLE (a b : ChunkModel) : Prop := a.windowIndex ≤ b.windowIndex

instance : DecidableRel winLE := fun a b =>
  inferInstanceAs (Decidable (a.windowIndex ≤ b.windowIndex))

instance : IsTotal ChunkModel winLE := ⟨fun a b => le_total a.windowIndex b.windowIndex⟩

instance : IsTrans ChunkModel winLE := ⟨fun _ _ _ hab hbc => le_trans hab hbc⟩

/-- The first pipeline stage of `Run`: sort the section's chunks ascending by
`WindowIndex`. -/
def sortByWindow (cs : List ChunkModel) : List ChunkModel := List.insertionSort winLE cs

/-- `schema.ToolResultChunk`: either an error record or a passage with title,
attribution, section id and sentences. -/
inductive ToolResultChunk where
  | error (msg : String)
  | passage (title : String) (attribution : String) (id : String) (sentences : List String)
deriving DecidableEq, Repr

/-- The sentence list of an emitted record (empty for an error record). -/
def sentencesOf : ToolResultChunk → List String
  | ToolResultChunk.error _ => []
  | ToolResultChunk.passage _ _ _ s => s

/-- The second pipeline stage of `Run` for one section: take title,
attribution and id from the first (lowest-window) chunk, build the local
cache and the `needIds` list, materialise via `fetchChunksByIds`, and
concatenate the resolved chunks' sentences. -/
def emitSection (db : List String → Option (List ChunkModel))
    (sectionChunks : List ChunkModel) : ToolResultChunk :=
  let sorted := sortByWindow sectionChunks
  let first := sorted.headD default
  let allChunks := fetchChunksByIds (localCache sorted) db (neededIds sorted)
  ToolResultChunk.passage first.title first.sourceURI first.sectionID
    (allChunks.foldl (fun acc c => acc ++ c.sentences) [])

/-- `collectTextSearchRanks`: on engine error, empty rank map and cache plus
the error; otherwise id → 1-based rank with first (best-ranked) occurrence
winning, and a cache of the inlined chunk records. -/
def collectTextSearchRanks (res : Except String (List (SearchHit ChunkModel))) :
    (List (String × Nat)) × (List (String × ChunkModel)) × Option String :=
  match res with
  | Except.error e => ([], [], some ("await text hits: " ++ e))
  | Except.ok hits =>
      let rc := hits.enum.foldl (fun rc p =>
        if (rc.1.lookup p.2.doc.chunkID).isSome then rc
        else (rc.1 ++ [(p.2.doc.chunkID, p.1 + 1)], rc.2 ++ [(p.2.doc.chunkID, p.2.doc)]))
        ([], [])
      (rc.1, rc.2, none)

/-- `collectVectorSearchRanks`: on engine error, empty rank map plus the
error; otherwise id → 1-based rank with first occurrence winning. -/
def collectVectorSearchRanks (res : Except String (List (SearchHit ChunkAnnModel))) :
    (List (String × Nat)) × Option String :=
  match res with
  | Except.error e => ([], some ("await vector hits: " ++ e))
  | Except.ok hits =>
      (hits.enum.foldl (fun rm p =>
        if (rm.lookup p.2.doc.chunkID).isSome then rm
        else rm ++ [(p.2.doc.chunkID, p.1 + 1)]) [], none)

/-- `hybridSearch`: an embedding failure aborts with an error before any rank
is collected; otherwise both engines' results are collected (an engine error
is logged and leaves its rank map empty), fused, the top-M ids selected, and
the chunks materialised through the lexical cache and the store. -/
def hybridSearch (textRes : Except String (List (SearchHit ChunkModel)))
    (embRes : Except String (List ℚ))
    (vecSearch : List ℚ → Except String (List (SearchHit ChunkAnnModel)))
    (db : List String → Option (List ChunkModel)) :
    Except String (List ChunkModel) :=
  match embRes with
  | Except.error e => Except.error ("embed: " ++ e)
  | Except.ok emb =>
      let tc := collectTextSearchRanks textRes
      let vc := collectVectorSearchRanks (vecSearch emb)
      Except.ok (fetchChunksByIds tc.2.1 db (topMIds maxChunks (combinedMap tc.1 vc.1)))

/-- `Run`: a hybrid-search error becomes a single error record on the output
stream; otherwise one passage per section bucket, emitted in section order. -/
def Run (textRes : Except String (List (SearchHit ChunkModel)))
    (embRes : Except String (List ℚ))
    (vecSearch : List ℚ → Except String (List (SearchHit ChunkAnnModel)))
    (db : List String → Option (List ChunkModel)) : List ToolResultChunk :=
  match hybridSearch textRes embRes vecSearch db with
  | Except.error e => [ToolResultChunk.error e]
  | Except.ok rankedChunks => (GroupBySectionWithRank rankedChunks).map (emitSection db)

/-- The two headers consulted by the authentication middleware. -/
structure HttpRequest where
  authorization : String
  xApiKey : String
deriving DecidableEq, Repr

/-- Outcome of the middleware: 500, 401 (missing key), 401 (wrong key), or
control passed to the wrapped handler. -/
inductive AuthOutcome where
  | serverError
  | unauthorizedMissing
  | unauthorizedInvalid
  | next
deriving DecidableEq, Repr

/-- Model of Go `strings.Split(s, " ")` on the character list: split at every
space, keeping empty fields (`Split("", " ") = [""]`). -/
def splitChars : List Char → List (List Char)
  | [] => [[]]
  | c :: rest =>
      if c = ' ' then [] :: splitChars rest
      else
        match splitChars rest with
        | [] => [[c]]
        | g :: gs => (c :: g) :: gs

/-- Go `strings.Split(s, " ")` as a list of strings. -/
def splitOnSpace (s : String) : List String := (splitChars s.data).map String.mk

/-- ASCII lower-casing of one character (Go `strings.ToLower` on ASCII). -/
def lowerChar (c : Char) : Char :=
  if 65 ≤ c.toNat ∧ c.toNat ≤ 90 then Char.ofNat (c.toNat + 32) else c

/-- Go `strings.ToLower` (the header prefix under comparison is ASCII). -/
def lowerString (s : String) : String := String.mk (s.data.map lowerChar)

/-- Key extraction of `APIKeyAuthMiddleware`: a non-empty `Authorization`
header is split on spaces — two parts with a (case-insensitive) `Bearer`
prefix yield the second part, a single part is taken whole, anything else
yields nothing; `X-API-Key` is consulted only when `Authorization` is empty. -/
def extractProvidedKey (authHeader xApiKeyHeader : String) : String :=
  if authHeader ≠ "" then
    match splitOnSpace authHeader with
    | [p0, p1] => if lowerString p0 = "bearer" then p1 else ""
    | [p0] => p0
    | _ => ""
  else if xApiKeyHeader ≠ "" then xApiKeyHeader
  else ""

/-- `APIKeyAuthMiddleware`: 500 when `API_KEY` is unset, 401 when no key was
provided, 401 when the provided key differs from the configured one, and the
wrapped handler otherwise. -/
def APIKeyAuthMiddleware (apiKey : String) (req : HttpRequest) : AuthOutcome :=
  if apiKey = "" then AuthOutcome.serverError
  else if extractProvidedKey req.authorization req.xApiKey = "" then
    AuthOutcome.unauthorizedMissing
  else if extractProvidedKey req.authorization req.xApiKey ≠ apiKey then
    AuthOutcome.unauthorizedInvalid
  else AuthOutcome.next

/-- Route wiring of `query_controller.go` (`Routes()`): the `/query` search
route registers `c.HandleQuery` directly, with no authentication middleware
in front, so every request reaches the search handler. -/
def queryRouteOutcome (_apiKey : String) (_req : HttpRequest) : AuthOutcome :=
  AuthOutcome.next

/-- Route wiring of `metadata_controller.go` (`Routes()`): the metadata route
is wrapped as `middleware.APIKeyAuthMiddleware(mc.ListSources)`. -/
def metadataRouteOutcome (apiKey : String) (req : HttpRequest) : AuthOutcome :=
  APIKeyAuthMiddleware apiKey req

/-- Example chunk: window 5 of section `s`, with a previous neighbour `p`
living in the preceding section and a next neighbour `b` not in the store. -/
def chunkA : ChunkModel :=
  { chunkID := "a", sectionID := "s", windowIndex := 5, prevChunkID := "p",
    nextChunkID := "b", title := "TA", sourceURI := "UA", sentences := ["sa1", "sa2"] }

/-- Example chunk: window 6 of section `s`, adjacent to `chunkA`. -/
def chunkB : ChunkModel :=
  { chunkID := "b", sectionID := "s", windowIndex := 6, prevChunkID := "a",
    nextChunkID := "", title := "TA", sourceURI := "UA", sentences := ["sb1"] }

/-- Example chunk: the last window of the section preceding `s`; it is
`chunkA`'s previous neighbour in reading order. -/
def chunkP : ChunkModel :=
  { chunkID := "p", sectionID := "s2", windowIndex := 9, prevChunkID := "",
    nextChunkID := "a", title := "TP", sourceURI := "UP", sentences := ["sp1"] }

/-- Example store that always fails the batched fetch. -/
def dbNone : List String → Option (List ChunkModel) := fun _ => none

/-- Example full pipeline run: lexical hits `[chunkP, chunkA]`, embedding ok,
vector search returns no hits, store fetches fail. -/
def hybridEx : Except String (List ChunkModel) :=
  hybridSearch (Except.ok [⟨chunkP⟩, ⟨chunkA⟩]) (Except.ok [1])
    (fun _ => Except.ok []) dbNone

/-- The materialised top-M chunks of the example run. -/
def rankedEx : List ChunkModel := hybridEx.toOption.getD []

/-- The section accumulator produced for section `s` on input
`[chunkA, chunkB]`: `1 + 1/2 + 0.15 · 1/2 = 63/40`, two chunks, best rank 1,
windows 5 then 6. -/
def aggEx : Agg :=
  { score := 63 / 40, count := 2, bestRank := 1, seenWin := [6, 5],
    collected := [chunkA, chunkB] }


theorem lookup_eq_none_of_not_mem {β : Type} (rest : List (String × β)) (a : String)
    (hk : a ∉ rest.map Prod.fst) : rest.lookup a = none := by
  induction rest with
  | nil => rfl
  | cons p r ih =>
      obtain ⟨k, v⟩ := p
      rw [List.map_cons, List.mem_cons] at hk
      push_neg at hk
      simp [List.lookup, beq_eq_false_iff_ne.mpr hk.1, ih hk.2]

theorem lookup_upsertAdd_self (m : List (String × ℚ)) (id : String) (v : ℚ) :
    (upsertAdd m id v).lookup id = some ((m.lookup id).getD 0 + v) := by
  induction m with
  | nil => simp [upsertAdd, List.lookup]
  | cons p rest ih =>
      obtain ⟨k, x⟩ := p
      by_cases h : k = id
      · subst h
        simp [upsertAdd, List.lookup]
      · have hb : (id == k) = false := beq_eq_false_iff_ne.mpr (fun he => h he.symm)
        simp [upsertAdd, h, List.lookup, hb, ih]

theorem lookup_upsertAdd_ne (m : List (String × ℚ)) {id id' : String} (v : ℚ)
    (h : id ≠ id') : (upsertAdd m id' v).lookup id = m.lookup id := by
  have hb : (id == id') = false := beq_eq_false_iff_ne.mpr h
  induction m with
  | nil => simp [upsertAdd, List.lookup, hb]
  | cons p rest ih =>
      obtain ⟨k, x⟩ := p
      by_cases hk : k = id'
      · subst hk
        simp [upsertAdd, List.lookup, hb]
      · by_cases hk2 : id = k
        · subst hk2
          simp [upsertAdd, hk, List.lookup]
        · have hb2 : (id == k) = false := beq_eq_false_iff_ne.mpr hk2
          simp [upsertAdd, hk, List.lookup, hb2, ih]

theorem lookup_foldl_upsertAdd (f : Nat → ℚ) :
    ∀ (vr : List (String × Nat)) (acc : List (String × ℚ)) (id : String),
    (vr.map Prod.fst).Nodup →
    ((vr.foldl (fun acc p => upsertAdd acc p.1 (f p.2)) acc).lookup id) =
      match vr.lookup id with
      | none => acc.lookup id
      | some r => some ((acc.lookup id).getD 0 + f r) := by
  intro vr
  induction vr with
  | nil => intro acc id _; simp [List.lookup]
  | cons p rest ih =>
      intro acc id hnd
      obtain ⟨k, r⟩ := p
      rw [List.map_cons, List.nodup_cons] at hnd
      obtain ⟨hk, hrest⟩ := hnd
      rw [List.foldl_cons, ih _ _ hrest]
      by_cases h : id = k
      · subst h
        have hnone : rest.lookup id = none := lookup_eq_none_of_not_mem rest id hk
        simp [List.lookup, hnone, lookup_upsertAdd_self]
      · have hb : (id == k) = false := beq_eq_false_iff_ne.mpr h
        have hacc := lookup_upsertAdd_ne acc (f r) h
        cases hrl : rest.lookup id <;> simp [List.lookup, hb, hrl, hacc]

theorem lookup_map_rank (f : Nat → ℚ) (tr : List (String × Nat)) (id : String) :
    ((tr.map (fun p => (p.1, f p.2))).lookup id) = (tr.lookup id).map f := by
  induction tr with
  | nil => simp [List.lookup]
  | cons p rest ih =>
      obtain ⟨k, r⟩ := p
      by_cases h : id = k
      · subst h; simp [List.lookup]
      · have hb : (id == k) = false := beq_eq_false_iff_ne.mpr h
        simp [List.lookup, hb, ih]

/-- C1.  The fused score of every chunk id equals the sum, over exactly the
engines that ranked the id, of that engine's weight divided by
`rrfK + rank`; an id ranked by neither engine has no entry in the fused map. -/
theorem rrf_fused_score (textRanks vecRanks : List (String × Nat))
    (hv : (vecRanks.map Prod.fst).Nodup) (id : String) :
    (combinedMap textRanks vecRanks).lookup id =
      match textRanks.lookup id, vecRanks.lookup id with
      | none, none => none
      | some rt, none => some (textSearchWeight / ((rrfK : ℚ) + (rt : ℚ)))
      | none, some rv => some (vectorSearchWeight / ((rrfK : ℚ) + (rv : ℚ)))
      | some rt, some rv =>
          some (textSearchWeight / ((rrfK : ℚ) + (rt : ℚ)) +
                vectorSearchWeight / ((rrfK : ℚ) + (rv : ℚ))) := by
  unfold combinedMap
  rw [lookup_foldl_upsertAdd (fun r => vectorSearchWeight / ((rrfK : ℚ) + (r : ℚ))) vecRanks _ id hv]
  have hmt := lookup_map_rank (fun r => textSearchWeight / ((rrfK : ℚ) + (r : ℚ))) textRanks id
  cases hvl : vecRanks.lookup id <;> simp only [hvl] <;>
    cases htl : textRanks.lookup id <;> simp [hmt, htl]

/-- Concrete instance of `rrf_fused_score`: id `b` ranked 2 by text and 1 by
vector scores `1/62 + 1/61`. -/
theorem rrf_fused_score_witness :
    (combinedMap [("a", 1), ("b", 2)] [("b", 1), ("c", 3)]).lookup "b" =
      some (textSearchWeight / ((rrfK : ℚ) + ((2 : Nat) : ℚ)) +
            vectorSearchWeight / ((rrfK : ℚ) + ((1 : Nat) : ℚ))) := by
  have h := rrf_fused_score [("a", 1), ("b", 2)] [("b", 1), ("c", 3)] (by decide) "b"
  simpa using h

theorem heapPush_subperm (M : Nat) (h : List (String × ℚ)) (p : String × ℚ) :
    List.Subperm (heapPush M h p) (p :: h) := by
  unfold heapPush
  have hperm : List.Perm (h.orderedInsert scoreLE p) (p :: h) := List.perm_orderedInsert _ _ _
  by_cases hc : M < (h.orderedInsert scoreLE p).length
  · simp only [hc, if_true]
    exact ((List.tail_sublist _).subperm).trans hperm.subperm
  · simp only [hc, if_false]
    exact hperm.subperm

theorem heapPush_sorted (M : Nat) (h : List (String × ℚ)) (p : String × ℚ)
    (hs : List.Sorted scoreLE h) : List.Sorted scoreLE (heapPush M h p) := by
  unfold heapPush
  have h2s : List.Sorted scoreLE (h.orderedInsert scoreLE p) := hs.orderedInsert p h
  by_cases hc : M < (h.orderedInsert scoreLE p).length
  · simp only [hc, if_true]
    exact h2s.sublist (List.tail_sublist _)
  · simpa only [hc, if_false] using h2s

theorem heapPush_length (M : Nat) (h : List (String × ℚ)) (p : String × ℚ)
    (hle : h.length ≤ M) : (heapPush M h p).length = min (h.length + 1) M := by
  unfold heapPush
  rw [show (h.orderedInsert scoreLE p).length = h.length + 1 from List.orderedInsert_length _ _ _]
  by_cases hc : M < h.length + 1
  · simp only [hc, if_true, List.length_tail, List.orderedInsert_length]
    omega
  · simp only [hc, if_false, List.orderedInsert_length]
    omega

theorem heapFold_subperm (M : Nat) :
    ∀ (l : List (String × ℚ)) (h : List (String × ℚ)),
    List.Subperm (l.foldl (heapPush M) h) (h ++ l) := by
  intro l
  induction l with
  | nil =>
      intro h
      simp only [List.foldl_nil, List.append_nil]
      exact List.Subperm.refl h
  | cons p l ih =>
      intro h
      rw [List.foldl_cons]
      have step := heapPush_subperm M h p
      have tailsp : List.Subperm (l.foldl (heapPush M) (heapPush M h p)) (heapPush M h p ++ l) :=
        ih _
      have mono : List.Subperm (heapPush M h p ++ l) ((p :: h) ++ l) :=
        (List.subperm_append_right l).mpr step
      have hmid : List.Perm ((p :: h) ++ l) (h ++ p :: l) := by
        rw [List.cons_append]
        exact List.perm_middle.symm
      exact ((tailsp.trans mono).trans hmid.subperm)

theorem heapFold_sorted (M : Nat) :
    ∀ (l : List (String × ℚ)) (h : List (String × ℚ)),
    List.Sorted scoreLE h → List.Sorted scoreLE (l.foldl (heapPush M) h) := by
  intro l
  induction l with
  | nil => intro h hs; simpa using hs
  | cons p l ih =>
      intro h hs
      rw [List.foldl_cons]
      exact ih _ (heapPush_sorted M h p hs)

theorem heapFold_length (M : Nat) :
    ∀ (l : List (String × ℚ)) (h : List (String × ℚ)),
    h.length ≤ M → (l.foldl (heapPush M) h).length = min (h.length + l.length) M := by
  intro l
  induction l with
  | nil => intro h hle; simp; omega
  | cons p l ih =>
      intro h hle
      rw [List.foldl_cons]
      have hstep := heapPush_length M h p hle
      have hle2 : (heapPush M h p).length ≤ M := by omega
      rw [ih _ hle2, hstep]
      simp only [List.length_cons]
      omega

theorem subperm_map_fst (l m : List (String × ℚ)) (h : List.Subperm l m) :
    List.Subperm (l.map Prod.fst) (m.map Prod.fst) := by
  obtain ⟨t, hperm, hsub⟩ := h
  exact ⟨t.map Prod.fst, hperm.map _, hsub.map _⟩

theorem lookup_eq_some_of_mem {β : Type} (m : List (String × β))
    (hnd : (m.map Prod.fst).Nodup) {p : String × β} (hp : p ∈ m) :
    m.lookup p.1 = some p.2 := by
  induction m with
  | nil => cases hp
  | cons q rest ih =>
      obtain ⟨k, v⟩ := q
      rw [List.map_cons, List.nodup_cons] at hnd
      rcases List.mem_cons.mp hp with heq | hmem
      · subst heq
        simp [List.lookup]
      · have hne : p.1 ≠ k := by
          intro he
          exact hnd.1 (he ▸ List.mem_map.mpr ⟨p, hmem, rfl⟩)
        rw [show List.lookup p.1 ((k, v) :: rest) = List.lookup p.1 rest by
          simp [List.lookup, beq_eq_false_iff_ne.mpr hne]]
        exact ih hnd.2 hmem

/-- C2.  The top-M selection never contains duplicate ids, has size
`min (maxChunks, |fused map|)`, and the selected pairs come out in
non-increasing fused-score order, each carrying exactly its fused score. -/
theorem topM_selection (combined : List (String × ℚ))
    (hnd : (combined.map Prod.fst).Nodup) :
    (topMIds maxChunks combined).Nodup ∧
    (topMIds maxChunks combined).length = min maxChunks combined.length ∧
    ((topMPairs maxChunks combined).reverse).Pairwise (fun a b => b.2 ≤ a.2) ∧
    ∀ p ∈ topMPairs maxChunks combined, combined.lookup p.1 = some p.2 := by
  have hsp : List.Subperm (topMPairs maxChunks combined) combined := by
    have := heapFold_subperm maxChunks combined []
    simpa [topMPairs] using this
  refine ⟨?_, ?_, ?_, ?_⟩
  · have hids : List.Subperm ((topMPairs maxChunks combined).map Prod.fst) (combined.map Prod.fst) :=
      subperm_map_fst _ _ hsp
    obtain ⟨t, hperm, hsub⟩ := hids
    exact List.nodup_reverse.mpr (hperm.nodup (hsub.nodup hnd))
  · have hlen := heapFold_length maxChunks combined [] (by simp)
    simp only [List.length_nil, Nat.zero_add] at hlen
    simp only [topMIds, List.length_reverse, List.length_map]
    simp only [topMPairs]
    omega
  · have hsorted : List.Sorted scoreLE (topMPairs maxChunks combined) :=
      heapFold_sorted maxChunks combined [] (by simp [List.Sorted])
    rw [List.pairwise_reverse]
    exact hsorted
  · intro p hp
    exact lookup_eq_some_of_mem combined hnd (hsp.subset hp)

/-- Concrete instance of `topM_selection` on a three-entry fused map. -/
theorem topM_selection_witness :
    (topMIds maxChunks [("a", 3), ("b", 5), ("c", 4)]).Nodup ∧
    (topMIds maxChunks [("a", 3), ("b", 5), ("c", 4)]).length =
      min maxChunks ([("a", (3 : ℚ)), ("b", 5), ("c", 4)]).length ∧
    ((topMPairs maxChunks [("a", 3), ("b", 5), ("c", 4)]).reverse).Pairwise
      (fun a b => b.2 ≤ a.2) :=
  have h := topM_selection [("a", 3), ("b", 5), ("c", 4)] (by decide)
  ⟨h.1, h.2.1, h.2.2.1⟩


theorem lookup_upsertAgg_self (secs : List (String × Agg)) (sid : String) (rank : Nat)
    (ch : ChunkModel) :
    (upsertAgg secs sid rank ch).lookup sid =
      some (match secs.lookup sid with
            | none => applyChunk (freshAgg rank) rank ch
            | some a => applyChunk a rank ch) := by
  induction secs with
  | nil => simp [upsertAgg, List.lookup]
  | cons p rest ih =>
      obtain ⟨k, a⟩ := p
      by_cases h : k = sid
      · subst h
        simp [upsertAgg, List.lookup]
      · have hb : (sid == k) = false := beq_eq_false_iff_ne.mpr (fun he => h he.symm)
        simp [upsertAgg, h, List.lookup, hb, ih]

theorem lookup_upsertAgg_ne (secs : List (String × Agg)) (sid : String) (rank : Nat)
    (ch : ChunkModel) {s : String} (h : s ≠ sid) :
    (upsertAgg secs sid rank ch).lookup s = secs.lookup s := by
  have hb : (s == sid) = false := beq_eq_false_iff_ne.mpr h
  induction secs with
  | nil => simp [upsertAgg, List.lookup, hb]
  | cons p rest ih =>
      obtain ⟨k, a⟩ := p
      by_cases hk : k = sid
      · subst hk
        simp [upsertAgg, List.lookup, hb]
      · by_cases hk2 : s = k
        · subst hk2
          simp [upsertAgg, hk, List.lookup]
        · have hb2 : (s == k) = false := beq_eq_false_iff_ne.mpr hk2
          simp [upsertAgg, hk, List.lookup, hb2, ih]

theorem lookup_upsertAgg_step (secs : List (String × Agg)) (p : Nat × ChunkModel) :
    (upsertAgg secs p.2.sectionID p.1 p.2).lookup p.2.sectionID =
      aggStep (secs.lookup p.2.sectionID) p := by
  rw [lookup_upsertAgg_self]
  cases secs.lookup p.2.sectionID <;> rfl

theorem lookup_groupFold (s : String) :
    ∀ (ps : List (Nat × ChunkModel)) (secs : List (String × Agg)),
    ((ps.foldl (fun secs p => upsertAgg secs p.2.sectionID p.1 p.2) secs).lookup s) =
      aggFold (secs.lookup s) (ps.filter (fun p => p.2.sectionID == s)) := by
  intro ps
  induction ps with
  | nil => intro secs; simp [aggFold]
  | cons p rest ih =>
      intro secs
      rw [List.foldl_cons, ih]
      by_cases h : p.2.sectionID = s
      · rw [List.filter_cons_of_pos (by simpa using h)]
        simp only [aggFold, List.foldl_cons]
        subst h
        rw [lookup_upsertAgg_step]
      · rw [List.filter_cons_of_neg (by simpa using h)]
        rw [lookup_upsertAgg_ne secs _ _ _ (fun he => h he.symm)]

theorem lookup_buildSections (chunks : List ChunkModel) (s : String) :
    (buildSections chunks).lookup s = aggFold none (sectionPairsOf s chunks) := by
  unfold buildSections sectionPairsOf
  rw [lookup_groupFold]
  rfl

theorem specBaseScore_append (l2 : List (Nat × ChunkModel)) :
    ∀ (l1 e : List (Nat × ChunkModel)),
    specBaseScore e (l1 ++ l2) = specBaseScore e l1 + specBaseScore (e ++ l1) l2 := by
  intro l1
  induction l1 with
  | nil => intro e; simp [specBaseScore]
  | cons p l1 ih =>
      intro e
      rw [List.cons_append]
      simp only [specBaseScore]
      rw [ih (e ++ [p])]
      rw [List.append_assoc, List.singleton_append]
      ring

theorem seenBefore_append (e : List (Nat × ChunkModel)) (p : Nat × ChunkModel) (x : Int) :
    seenBefore (e ++ [p]) x = (seenBefore e x || (p.2.windowIndex == x)) := by
  simp [seenBefore, List.any_append]

theorem aggMatches_applyChunk {earlier : List (Nat × ChunkModel)} {a : Agg}
    (hm : AggMatches earlier a) (p : Nat × ChunkModel) :
    AggMatches (earlier ++ [p]) (applyChunk a p.1 p.2) := by
  obtain ⟨hscore, hcount, hseen, hcoll, hbmem, hble⟩ := hm
  refine ⟨?_, ?_, ?_, ?_, ?_, ?_⟩
  · rw [specBaseScore_append [p] earlier []]
    simp only [List.nil_append]
    simp only [specBaseScore]
    have hIff := hseen (p.2.windowIndex - 1)
    by_cases hb : seenBefore earlier (p.2.windowIndex - 1) = true
    · have hmem : p.2.windowIndex - 1 ∈ a.seenWin := hIff.mpr hb
      simp only [applyChunk, if_pos hmem, hb, if_true, hscore]
      ring
    · have hmem : p.2.windowIndex - 1 ∉ a.seenWin := fun hx => hb (hIff.mp hx)
      rw [show seenBefore earlier (p.2.windowIndex - 1) = false from eq_false_of_ne_true hb]
      simp only [applyChunk, if_neg hmem, Bool.false_eq_true, if_false, hscore]
      ring
  · simp [applyChunk, hcount]
  · intro x
    have hx := hseen x
    simp only [applyChunk, List.mem_cons, seenBefore_append, Bool.or_eq_true, beq_iff_eq, hx]
    constructor
    · rintro (he | hs)
      · exact Or.inr he.symm
      · exact Or.inl hs
    · rintro (hs | he)
      · exact Or.inr hs
      · exact Or.inl he.symm
  · simp [applyChunk, hcoll]
  · simp only [applyChunk, List.map_append, List.map_cons, List.map_nil]
    rcases min_choice a.bestRank p.1 with h | h
    · rw [h]
      exact List.mem_append_left _ hbmem
    · rw [h]
      exact List.mem_append_right _ (List.mem_singleton.mpr rfl)
  · intro q hq
    rcases List.mem_append.mp hq with hq | hq
    · exact le_trans (min_le_left _ _) (hble q hq)
    · rw [List.mem_singleton.mp hq]
      exact min_le_right _ _

theorem aggMatches_init (p : Nat × ChunkModel) :
    AggMatches [p] (applyChunk (freshAgg p.1) p.1 p.2) := by
  refine ⟨?_, ?_, ?_, ?_, ?_, ?_⟩
  · simp only [applyChunk, freshAgg, specBaseScore, seenBefore, List.any_nil,
      List.not_mem_nil, if_false, Bool.false_eq_true]
    simp
  · simp [applyChunk, freshAgg]
  · intro x
    simp only [applyChunk, freshAgg, seenBefore, List.any_cons, List.any_nil,
      Bool.or_false, beq_iff_eq, List.mem_cons, List.not_mem_nil, or_false]
    exact ⟨fun h => h.symm, fun h => h.symm⟩
  · simp [applyChunk, freshAgg]
  · simp [applyChunk, freshAgg]
  · intro q hq
    rw [List.mem_singleton.mp hq]
    simp [applyChunk, freshAgg]

theorem aggFold_matches :
    ∀ (ps : List (Nat × ChunkModel)) (earlier : List (Nat × ChunkModel)) (a : Agg),
    AggMatches earlier a →
    ∃ b, aggFold (some a) ps = some b ∧ AggMatches (earlier ++ ps) b := by
  intro ps
  induction ps with
  | nil =>
      intro e a hm
      exact ⟨a, rfl, by simpa using hm⟩
  | cons p rest ih =>
      intro e a hm
      have hstep := aggMatches_applyChunk hm p
      obtain ⟨b, hb, hmb⟩ := ih (e ++ [p]) _ hstep
      refine ⟨b, ?_, ?_⟩
      · simpa [aggFold, aggStep, List.foldl_cons] using hb
      · rw [List.append_assoc, List.singleton_append] at hmb
        exact hmb

theorem aggFold_of_ne_nil (ps : List (Nat × ChunkModel)) (hne : ps ≠ []) :
    ∃ b, aggFold none ps = some b ∧ AggMatches ps b := by
  match ps, hne with
  | p :: rest, _ =>
      obtain ⟨b, hb, hmb⟩ := aggFold_matches rest [p] _ (aggMatches_init p)
      refine ⟨b, ?_, by simpa using hmb⟩
      simpa [aggFold, aggStep, List.foldl_cons] using hb

/-- C3.  The final score of each section bucket equals the spec formula: the
sum over its chunks at fused positions `r` of `w(r) = 1/r`, plus
`0.15 · w(r)` for each chunk whose `window_index − 1` was contributed by an
earlier-ranked chunk of the same section, divided by `1 + 0.10·(count − 1)`
exactly when the bucket holds more than one chunk (the division built into
`specSectionScore`, applied once and never when `count = 1`). -/
theorem section_score_formula (chunks : List ChunkModel) (s : String) (a : Agg)
    (h : (buildSections chunks).lookup s = some a) :
    (finishAgg a).score = specSectionScore s chunks ∧
    a.count = (sectionPairsOf s chunks).length := by
  rw [lookup_buildSections] at h
  have hne : sectionPairsOf s chunks ≠ [] := by
    intro hnil
    rw [hnil] at h
    simp [aggFold] at h
  obtain ⟨b, hb, hmb⟩ := aggFold_of_ne_nil _ hne
  rw [hb, Option.some_inj] at h
  subst h
  obtain ⟨hscore, hcount, -, -, -, -⟩ := hmb
  refine ⟨?_, hcount⟩
  unfold finishAgg specSectionScore
  by_cases hc : 1 < (sectionPairsOf s chunks).length
  · rw [if_pos (by rw [hcount]; exact hc), if_pos hc]
    simp only [hscore, hcount]
  · rw [if_neg (by rw [hcount]; exact hc), if_neg hc]
    exact hscore

/-- Concrete instance of `section_score_formula`: two adjacent chunks of one
section score `(1 + 1/2 + 0.15/2) / 1.1`. -/
theorem section_score_formula_witness :
    (finishAgg aggEx).score = specSectionScore "s" [chunkA, chunkB] ∧
    aggEx.count = (sectionPairsOf "s" [chunkA, chunkB]).length :=
  section_score_formula [chunkA, chunkB] "s" aggEx (by
    simp only [buildSections, rankedPairs, List.enum, List.enumFrom, List.map_cons,
      List.map_nil, List.foldl_cons, List.foldl_nil, upsertAgg, applyChunk, freshAgg,
      chunkA, chunkB, aggEx, rrWeight, W, AdjacencyBonus, List.lookup]
    norm_num)

/-- C4.  Section buckets are returned sorted by final score descending, ties
by `best_rank` ascending, further ties by `count` descending; `best_rank` is
the minimum fused rank among the section's chunks; and `Run` emits exactly
the passages of the buckets, in this order. -/
theorem section_ordering (chunks : List ChunkModel) :
    (sectionOrderKv chunks).Pairwise aggLE ∧
    (∀ s a, (buildSections chunks).lookup s = some a →
      a.bestRank ∈ (sectionPairsOf s chunks).map Prod.fst ∧
      ∀ q ∈ sectionPairsOf s chunks, a.bestRank ≤ q.1) ∧
    (∀ textRes embRes vecSearch db cs,
      hybridSearch textRes embRes vecSearch db = Except.ok cs →
      Run textRes embRes vecSearch db = (GroupBySectionWithRank cs).map (emitSection db)) := by
  refine ⟨?_, ?_, ?_⟩
  · exact List.sorted_insertionSort aggLE _
  · intro s a h
    rw [lookup_buildSections] at h
    have hne : sectionPairsOf s chunks ≠ [] := by
      intro hnil
      rw [hnil] at h
      simp [aggFold] at h
    obtain ⟨b, hb, hmb⟩ := aggFold_of_ne_nil _ hne
    rw [hb, Option.some_inj] at h
    subst h
    exact ⟨hmb.2.2.2.2.1, hmb.2.2.2.2.2⟩
  · intro textRes embRes vecSearch db cs h
    unfold Run
    rw [h]

/-- Concrete instance of `section_ordering` on the example data. -/
theorem section_ordering_witness :
    (sectionOrderKv [chunkA, chunkB]).Pairwise aggLE ∧
    aggEx.bestRank ∈ (sectionPairsOf "s" [chunkA, chunkB]).map Prod.fst ∧
    Run (Except.ok [⟨chunkP⟩, ⟨chunkA⟩]) (Except.ok [1]) (fun _ => Except.ok []) dbNone =
      (GroupBySectionWithRank rankedEx).map (emitSection dbNone) := by
  refine ⟨(section_ordering [chunkA, chunkB]).1, ?_, ?_⟩
  · refine ((section_ordering [chunkA, chunkB]).2.1 "s" aggEx ?_).1
    simp only [buildSections, rankedPairs, List.enum, List.enumFrom, List.map_cons,
      List.map_nil, List.foldl_cons, List.foldl_nil, upsertAgg, applyChunk, freshAgg,
      chunkA, chunkB, aggEx, rrWeight, W, AdjacencyBonus, List.lookup]
    norm_num
  · exact (section_ordering [chunkA, chunkB]).2.2 (Except.ok [⟨chunkP⟩, ⟨chunkA⟩])
      (Except.ok [1]) (fun _ => Except.ok []) dbNone rankedEx rfl

theorem foldl_append_sentences (l : List ChunkModel) :
    ∀ acc : List String,
    l.foldl (fun acc c => acc ++ c.sentences) acc = acc ++ (l.map (fun c => c.sentences)).flatten := by
  induction l with
  | nil => intro acc; simp
  | cons c l ih =>
      intro acc
      rw [List.foldl_cons, ih, List.map_cons, List.flatten_cons, List.append_assoc]

theorem fetch_eq_filterMap (cache : List (String × ChunkModel))
    (db : List String → Option (List ChunkModel)) (ids : List String) :
    fetchChunksByIds cache db ids =
      ids.filterMap (fun id => (resolveMap cache db ids).lookup id) := by
  unfold fetchChunksByIds
  by_cases h : ids.isEmpty
  · rw [if_pos h, List.isEmpty_iff.mp h]
    rfl
  · rw [if_neg h]

theorem addNeeded_nodup {acc : List String} (h : acc.Nodup) (id : String) :
    (addNeeded acc id).Nodup := by
  unfold addNeeded
  by_cases hc : id ≠ "" ∧ id ∉ acc
  · rw [if_pos hc]
    rw [(List.perm_append_singleton id acc).nodup_iff]
    exact List.nodup_cons.mpr ⟨hc.2, h⟩
  · rw [if_neg hc]
    exact h

theorem neededIds_fold_nodup :
    ∀ (cs : List ChunkModel) (acc : List String), acc.Nodup →
    (cs.foldl
      (fun acc ch =>
        addNeeded (addNeeded (addNeeded acc ch.prevChunkID) ch.chunkID) ch.nextChunkID)
      acc).Nodup := by
  intro cs
  induction cs with
  | nil => intro acc h; simpa using h
  | cons c cs ih =>
      intro acc h
      rw [List.foldl_cons]
      exact ih _ (addNeeded_nodup (addNeeded_nodup (addNeeded_nodup h _) _) _)

theorem neededIds_nodup (cs : List ChunkModel) : (neededIds cs).Nodup :=
  neededIds_fold_nodup cs [] List.nodup_nil

/-- C5.  The `needed` id list — built by walking the window-sorted section
chunks and appending `prev`, own, `next` ids, skipping empties and ids
already added — contains no duplicates, and the emitted passage's sentences
are exactly the concatenation, in `needed` order, of the resolved chunks'
sentence lists (unresolved ids contribute nothing, and no id contributes
twice). -/
theorem passage_sentence_assembly (sectionChunks : List ChunkModel)
    (db : List String → Option (List ChunkModel)) :
    (neededIds (sortByWindow sectionChunks)).Nodup ∧
    sentencesOf (emitSection db sectionChunks) =
      (((neededIds (sortByWindow sectionChunks)).filterMap
          (fun id =>
            (resolveMap (localCache (sortByWindow sectionChunks)) db
              (neededIds (sortByWindow sectionChunks))).lookup id)).map
        (fun c => c.sentences)).flatten := by
  refine ⟨neededIds_nodup _, ?_⟩
  unfold emitSection
  simp only [sentencesOf]
  rw [foldl_append_sentences, List.nil_append, fetch_eq_filterMap]

/-- C6 counterexample: one successful lexical hit and a failed embedding —
the code emits a single error record on the stream instead of proceeding
with lexical-only fusion. -/
theorem embedding_failure_emits_error :
    Run (Except.ok [⟨chunkA⟩]) (Except.error "boom") (fun _ => Except.ok []) dbNone =
      [ToolResultChunk.error "embed: boom"] := rfl

/-- C6 (amended).  Whenever embedding acquisition fails, the pipeline aborts:
a single error record is emitted and no passages are produced, regardless of
the lexical result. -/
theorem embedding_failure_aborts (textRes : Except String (List (SearchHit ChunkModel)))
    (e : String) (vecSearch : List ℚ → Except String (List (SearchHit ChunkAnnModel)))
    (db : List String → Option (List ChunkModel)) :
    Run textRes (Except.error e) vecSearch db = [ToolResultChunk.error ("embed: " ++ e)] := rfl

theorem error_not_mem_map_emitSection (db : List String → Option (List ChunkModel))
    (groups : List (List ChunkModel)) (m : String) :
    ToolResultChunk.error m ∉ groups.map (emitSection db) := by
  intro hmem
  obtain ⟨x, -, hx⟩ := List.mem_map.mp hmem
  simp [emitSection] at hx

/-- C7.  When exactly one engine fails, its rank map is treated as empty and
the pipeline continues to fusion and passage emission with the surviving
engine's ranks; the request is not aborted and no error record is emitted. -/
theorem engine_failure_degradation (e : String) (emb : List ℚ)
    (textHits : List (SearchHit ChunkModel))
    (vecHits : List (SearchHit ChunkAnnModel))
    (db : List String → Option (List ChunkModel)) :
    hybridSearch (Except.error e) (Except.ok emb) (fun _ => Except.ok vecHits) db =
      hybridSearch (Except.ok []) (Except.ok emb) (fun _ => Except.ok vecHits) db ∧
    Run (Except.error e) (Except.ok emb) (fun _ => Except.ok vecHits) db =
      Run (Except.ok []) (Except.ok emb) (fun _ => Except.ok vecHits) db ∧
    (∀ m, ToolResultChunk.error m ∉
      Run (Except.error e) (Except.ok emb) (fun _ => Except.ok vecHits) db) ∧
    hybridSearch (Except.ok textHits) (Except.ok emb) (fun _ => Except.error e) db =
      hybridSearch (Except.ok textHits) (Except.ok emb) (fun _ => Except.ok []) db ∧
    Run (Except.ok textHits) (Except.ok emb) (fun _ => Except.error e) db =
      Run (Except.ok textHits) (Except.ok emb) (fun _ => Except.ok []) db ∧
    (∀ m, ToolResultChunk.error m ∉
      Run (Except.ok textHits) (Except.ok emb) (fun _ => Except.error e) db) := by
  refine ⟨rfl, rfl, ?_, rfl, rfl, ?_⟩
  · intro m
    exact error_not_mem_map_emitSection db _ m
  · intro m
    exact error_not_mem_map_emitSection db _ m

theorem lookup_upsertChunk_self (m : List (String × ChunkModel)) (id : String) (c : ChunkModel) :
    (upsertChunk m id c).lookup id = some c := by
  induction m with
  | nil => simp [upsertChunk, List.lookup]
  | cons p rest ih =>
      obtain ⟨k, x⟩ := p
      by_cases h : k = id
      · subst h
        simp [upsertChunk, List.lookup]
      · have hb : (id == k) = false := beq_eq_false_iff_ne.mpr (fun he => h he.symm)
        simp [upsertChunk, h, List.lookup, hb, ih]

theorem lookup_upsertChunk_ne (m : List (String × ChunkModel)) {x id : String} (c : ChunkModel)
    (h : x ≠ id) : (upsertChunk m id c).lookup x = m.lookup x := by
  have hb : (x == id) = false := beq_eq_false_iff_ne.mpr h
  induction m with
  | nil => simp [upsertChunk, List.lookup, hb]
  | cons p rest ih =>
      obtain ⟨k, v⟩ := p
      by_cases hk : k = id
      · subst hk
        simp [upsertChunk, List.lookup, hb]
      · by_cases hk2 : x = k
        · subst hk2
          simp [upsertChunk, hk, List.lookup]
        · have hb2 : (x == k) = false := beq_eq_false_iff_ne.mpr hk2
          simp [upsertChunk, hk, List.lookup, hb2, ih]

theorem cachedPart_fold (cache : List (String × ChunkModel)) :
    ∀ (l : List String) (m : List (String × ChunkModel)) (x : String),
    ((l.foldl (fun m id =>
        match cache.lookup id with
        | some c => upsertChunk m id c
        | none => m) m).lookup x) =
      if x ∈ l ∧ (cache.lookup x).isSome then cache.lookup x else m.lookup x := by
  intro l
  induction l with
  | nil =>
      intro m x
      simp
  | cons id l ih =>
      intro m x
      rw [List.foldl_cons, ih]
      by_cases hx : x = id
      · subst hx
        cases hc : cache.lookup x with
        | none => simp
        | some c =>
            by_cases hcond : x ∈ l ∧ (Option.some c).isSome = true
            · rw [if_pos hcond,
                if_pos (⟨List.mem_cons_self x l, rfl⟩ :
                  x ∈ x :: l ∧ (Option.some c).isSome = true)]
            · rw [if_neg hcond, lookup_upsertChunk_self,
                if_pos (⟨List.mem_cons_self x l, rfl⟩ :
                  x ∈ x :: l ∧ (Option.some c).isSome = true)]
      · have hmem : (x ∈ id :: l) ↔ (x ∈ l) := by
          simp [List.mem_cons, hx]
        have hstep : ((match cache.lookup id with
            | some c => upsertChunk m id c
            | none => m) : List (String × ChunkModel)).lookup x = m.lookup x := by
          cases hc : cache.lookup id with
          | none => rfl
          | some c => exact lookup_upsertChunk_ne m c hx
        rw [hstep]
        by_cases hcond : x ∈ l ∧ (cache.lookup x).isSome
        · rw [if_pos hcond, if_pos ⟨hmem.mpr hcond.1, hcond.2⟩]
        · rw [if_neg hcond, if_neg (fun hc2 => hcond ⟨hmem.mp hc2.1, hc2.2⟩)]

theorem cachedPart_lookup (cache : List (String × ChunkModel)) (ids : List String)
    {x : String} (hx : x ∈ ids) :
    (cachedPart cache ids).lookup x = cache.lookup x := by
  unfold cachedPart
  rw [cachedPart_fold]
  by_cases hh : (cache.lookup x).isSome
  · rw [if_pos ⟨hx, hh⟩]
  · rw [if_neg (fun hc => hh hc.2)]
    rw [Option.not_isSome_iff_eq_none.mp hh]
    rfl

theorem resolveMap_of_db_none (cache : List (String × ChunkModel))
    (db : List String → Option (List ChunkModel)) (ids : List String)
    (hdb : db (missingOf cache ids) = none) :
    resolveMap cache db ids = cachedPart cache ids := by
  unfold resolveMap
  by_cases hm : (missingOf cache ids).isEmpty <;> simp [hm, hdb]

/-- C8 (amended).  During neighbour materialisation, every id of `needed`
present in the section-local cache is served locally (it is excluded from the
`missing` list handed to the single batched store fetch); if that fetch
fails, the locally cached chunks are still used and the passage is built from
them; and in general each id resolves through the combined map, unresolved
ids being omitted without failing the passage. -/
theorem fetch_local_and_batched (cache : List (String × ChunkModel))
    (db : List String → Option (List ChunkModel)) (ids : List String) :
    (∀ id ∈ ids, (cache.lookup id).isSome → id ∉ missingOf cache ids) ∧
    (db (missingOf cache ids) = none →
      fetchChunksByIds cache db ids = ids.filterMap (fun id => cache.lookup id)) ∧
    fetchChunksByIds cache db ids =
      ids.filterMap (fun id => (resolveMap cache db ids).lookup id) := by
  refine ⟨?_, ?_, fetch_eq_filterMap cache db ids⟩
  · intro id _ hsome hmem
    rw [missingOf, List.mem_filter] at hmem
    have hn : cache.lookup id = none := Option.isNone_iff_eq_none.mp hmem.2
    rw [hn] at hsome
    simp at hsome
  · intro hdb
    rw [fetch_eq_filterMap, resolveMap_of_db_none cache db ids hdb]
    apply List.filterMap_congr
    intro x hx
    rw [cachedPart_lookup cache ids hx]

/-- Concrete instance of `fetch_local_and_batched`: the cached id `a` is not
batched, and with a failing store the passage is assembled from the cache. -/
theorem fetch_local_and_batched_witness :
    ("a" ∉ missingOf (localCache [chunkA]) ["p", "a", "b"]) ∧
    fetchChunksByIds (localCache [chunkA]) dbNone ["p", "a", "b"] =
      (["p", "a", "b"]).filterMap (fun id => (localCache [chunkA]).lookup id) :=
  have h := fetch_local_and_batched (localCache [chunkA]) dbNone ["p", "a", "b"]
  ⟨h.1 "a" (by decide) (by decide), h.2.1 rfl⟩

/-- C8 counterexample: in a run whose lexical hits are `[chunkP, chunkA]`,
the id `p` sits in the RRF-stage lexical chunk cache and in the `needed`
list of section `s`'s passage, yet it is absent from the section-local cache
and lands in the `missing` list sent to the batched store fetch — the
materialisation consults only the section-local cache. -/
theorem rrf_cache_not_consulted :
    ((collectTextSearchRanks (Except.ok [⟨chunkP⟩, ⟨chunkA⟩])).2.1.lookup "p").isSome = true ∧
    [chunkA] ∈ GroupBySectionWithRank [chunkP, chunkA] ∧
    "p" ∈ neededIds (sortByWindow [chunkA]) ∧
    "p" ∈ missingOf (localCache (sortByWindow [chunkA])) (neededIds (sortByWindow [chunkA])) := by
  refine ⟨by decide, ?_, by decide, by decide⟩
  show [chunkA] ∈ (sectionOrderKv [chunkP, chunkA]).map (fun p => p.2.collected)
  have hperm : List.Perm (sectionOrderKv [chunkP, chunkA])
      ((buildSections [chunkP, chunkA]).map (fun p => (p.1, finishAgg p.2))) :=
    List.perm_insertionSort aggLE _
  have hmap : (((buildSections [chunkP, chunkA]).map
      (fun p => (p.1, finishAgg p.2))).map (fun p => p.2.collected)) = [[chunkP], [chunkA]] := by
    simp only [buildSections, rankedPairs, List.enum, List.enumFrom, List.map_cons,
      List.map_nil, List.foldl_cons, List.foldl_nil, upsertAgg, applyChunk, freshAgg,
      chunkP, chunkA, List.lookup]
    rw [if_neg (by decide : ¬("s2" : String) = "s")]
    simp [upsertAgg, finishAgg, applyChunk, freshAgg, chunkP, chunkA]
  rw [List.Perm.mem_iff (hperm.map (fun p => p.2.collected)), hmap]
  decide

/-- C9.  The middleware itself rejects per the claim — 401 when no key is
presented, 401 on a wrong key, 500 when the server key is unconfigured, and
passes only the correct key — but the `/query` search route is registered
without the middleware, so a request presenting no key still reaches the
search handler (the wrapped metadata route rejects the same request). -/
theorem query_route_bypasses_auth :
    queryRouteOutcome "secret" { authorization := "", xApiKey := "" } = AuthOutcome.next ∧
    APIKeyAuthMiddleware "secret" { authorization := "", xApiKey := "" } =
      AuthOutcome.unauthorizedMissing ∧
    APIKeyAuthMiddleware "secret" { authorization := "Bearer wrong", xApiKey := "" } =
      AuthOutcome.unauthorizedInvalid ∧
    APIKeyAuthMiddleware "" { authorization := "Bearer secret", xApiKey := "" } =
      AuthOutcome.serverError ∧
    APIKeyAuthMiddleware "secret" { authorization := "Bearer secret", xApiKey := "" } =
      AuthOutcome.next ∧
    APIKeyAuthMiddleware "secret" { authorization := "", xApiKey := "secret" } =
      AuthOutcome.next ∧
    metadataRouteOutcome "secret" { authorization := "", xApiKey := "" } =
      AuthOutcome.unauthorizedMissing :=
  ⟨rfl, by decide, by decide, by decide, by decide, by decide, by decide⟩

/-- C10.  With the server key configured and an Authorization header that is
a single space-free token, the middleware takes the entire header value as
the provided key — the request reaches the handler exactly when that value
equals the configured key — and the `X-API-Key` header is ignored. -/
theorem bare_authorization_token (apiKey : String) (req : HttpRequest)
    (hk : apiKey ≠ "") (ha : req.authorization ≠ "")
    (hsingle : splitOnSpace req.authorization = [req.authorization]) :
    (APIKeyAuthMiddleware apiKey req = AuthOutcome.next ↔ req.authorization = apiKey) ∧
    ∀ x, APIKeyAuthMiddleware apiKey { authorization := req.authorization, xApiKey := x } =
      APIKeyAuthMiddleware apiKey req := by
  have hex : ∀ x, extractProvidedKey req.authorization x = req.authorization := by
    intro x
    unfold extractProvidedKey
    rw [if_pos ha, hsingle]
  refine ⟨?_, ?_⟩
  · unfold APIKeyAuthMiddleware
    rw [if_neg hk, hex, if_neg ha]
    by_cases he : req.authorization = apiKey
    · rw [if_neg (fun h2 => h2 he)]
      simp [he]
    · rw [if_pos he]
      simp [he]
  · intro x
    simp only [APIKeyAuthMiddleware, hex]

/-- Concrete instance of `bare_authorization_token`: a bare matching token is
accepted, and the `X-API-Key` value does not change the outcome. -/
theorem bare_authorization_token_witness :
    (APIKeyAuthMiddleware "k" { authorization := "k", xApiKey := "z" } = AuthOutcome.next ↔
      ("k" : String) = "k") ∧
    APIKeyAuthMiddleware "k" { authorization := "k", xApiKey := "q" } =
      APIKeyAuthMiddleware "k" { authorization := "k", xApiKey := "z" } :=
  ⟨(bare_authorization_token "k" ⟨"k", "z"⟩ (by decide) (by decide) (by decide)).1,
   (bare_authorization_token "k" ⟨"k", "z"⟩ (by decide) (by decide) (by decide)).2 "q"⟩

end MedicineRag
